import Mathlib

/-
Verification of roax/postgresql.py (PostgreSQL resource-item module).

Shallow embedding of:
  * the four codec classes and the module-level codec table (lines 16-65);
  * the reentrant, thread-local connection/transaction demarcation of
    Database.connect (lines 91-120), together with a model of the keyed
    psycopg2 ThreadedConnectionPool it drives;
  * the codec resolution of the asynchronous successor implementation,
    present in the repository only through its tests, modelled from the
    specification where so marked.

Python values are modelled by the inductive types Sca and Py below; machine
integers are Int/Nat; failure (raised exceptions) is Option/Except.
-/

/-- Scalar (non-container) Python values that flow through the codecs.
Floats are carried as an opaque 64-bit pattern; dates, datetimes and UUIDs
carry their components; buffer types carry their byte contents. -/
inductive Sca where
  | vnone
  | vbool (b : Bool)
  | vint (n : Int)
  | vfloat (bits : Nat)
  | vstr (s : String)
  | vbytes (bs : List Nat)
  | vbytearray (bs : List Nat)
  | vmemoryview (bs : List Nat)
  | vdate (y m d : Nat)
  | vdatetime (y mo dy h mi sec : Nat)
  | vuuid (u : String)
deriving DecidableEq

/-- Python values handled by the module: scalars plus one structural level of
containers (the schema types the module's codec table keys on are a record of
scalars, a list of scalars, or a set of scalars). -/
inductive Py where
  | atom (a : Sca)
  | pylist (xs : List Sca)
  | pydict (kvs : List (String × Sca))
  | pyset (xs : List Sca)
deriving DecidableEq

/-- Scalar abstract schema kinds of roax.schema that the codec table keys on
(s.int, s.float, s.bool, s.bytes, s.date, s.datetime, s.uuid, s.str). -/
inductive Sc where
  | sint
  | sfloat
  | sbool
  | sbytes
  | sdate
  | sdatetime
  | suuid
  | sstr
deriving DecidableEq

/-- Abstract schema types: a scalar, a record of scalar fields (s.dict), a
list of scalars (s.list), or a set of scalars (s.set). -/
inductive SType where
  | scalar (t : Sc)
  | sdict (props : List (String × Sc))
  | slist (t : Sc)
  | sset (t : Sc)
deriving DecidableEq

/-- Modelled from the spec: the external schema framework performs structural
validation; a scalar value is valid for a scalar schema kind exactly when it
is an instance of the corresponding Python type. -/
def validSc : Sc → Sca → Bool
  | .sint, .vint _ => true
  | .sfloat, .vfloat _ => true
  | .sbool, .vbool _ => true
  | .sbytes, .vbytes _ => true
  | .sdate, .vdate _ _ _ => true
  | .sdatetime, .vdatetime _ _ _ _ _ _ => true
  | .suuid, .vuuid _ => true
  | .sstr, .vstr _ => true
  | _, _ => false

/-- Lexicographic comparison on lists of naturals, used only to fix one
canonical order on set elements. -/
def keyLe : List Nat → List Nat → Bool
  | [], _ => true
  | _ :: _, [] => false
  | a :: as, b :: bs => if a < b then true else if b < a then false else keyLe as bs

/-- Key of a string for the canonical order. -/
def strKey (s : String) : List Nat := s.data.map Char.toNat

/-- Key of an integer for the canonical order. -/
def intKey (n : Int) : List Nat := if 0 ≤ n then [1, n.toNat] else [0, (-n).toNat]

/-- Injection of scalar values into lists of naturals, used only to fix one
canonical order on set elements (Python sets are unordered; sets are
modelled as canonically ordered duplicate-free lists). -/
def scaKey : Sca → List Nat
  | .vnone => [0]
  | .vbool b => [1, cond b 1 0]
  | .vint n => 2 :: intKey n
  | .vfloat bits => [3, bits]
  | .vstr s => 4 :: strKey s
  | .vbytes bs => 5 :: bs
  | .vbytearray bs => 6 :: bs
  | .vmemoryview bs => 7 :: bs
  | .vdate y m d => [8, y, m, d]
  | .vdatetime y mo dy h mi sec => [9, y, mo, dy, h, mi, sec]
  | .vuuid u => 10 :: strKey u

/-- Canonical order on scalar values (order by key). -/
def scaLe (a b : Sca) : Prop := keyLe (scaKey a) (scaKey b) = true

instance : DecidableRel scaLe := fun a b =>
  inferInstanceAs (Decidable (keyLe (scaKey a) (scaKey b) = true))

/-- Boolean check that a list of scalars is in canonical (key-ascending)
order. -/
def sortedKeys (xs : List Sca) : Bool := decide (xs.Pairwise scaLe)

/-- Pairwise validation of a record value against the record schema's ordered
(field name, scalar kind) properties. -/
def validDict : List (String × Sc) → List (String × Sca) → Bool
  | [], [] => true
  | (k, t) :: ps, (k2, v) :: kvs => k == k2 && validSc t v && validDict ps kvs
  | _, _ => false

/-- Validity of a Python value for an abstract schema type.  Set values are
required to be in canonical form (duplicate-free, key-ascending), which is the
model of Python set extensionality. -/
def valid : SType → Py → Bool
  | .scalar t, .atom a => validSc t a
  | .slist t, .pylist xs => xs.all (validSc t)
  | .sset t, .pyset xs => xs.all (validSc t) && sortedKeys xs && (xs.dedup == xs)
  | .sdict props, .pydict kvs => validDict props kvs
  | _, _ => false

/-- Modelled from the spec: schema.json_encode of roax.schema, at the
interface boundary of the external schema framework.  It validates the value
and produces its JSON-level wire form; scalars keep their canonical wire
representation, a set becomes an array (its canonical element list), lists
and records keep their structure with each member encoded. -/
def jsonEncode : SType → Py → Option Py
  | .scalar t, .atom a => if validSc t a then some (.atom a) else none
  | .slist t, .pylist xs => if xs.all (validSc t) then some (.pylist xs) else none
  | .sset t, .pyset xs => if xs.all (validSc t) then some (.pylist xs) else none
  | .sdict props, .pydict kvs => if validDict props kvs then some (.pydict kvs) else none
  | _, _ => none

/-- Modelled from the spec: schema.json_decode of roax.schema.  It validates
the JSON-level wire value and rebuilds the abstract value; a set is rebuilt
from an array by discarding duplicates and order (normalising to the
canonical form).  A serialized text (a Python str) is not a valid wire form
for a record, list or set schema: structural validation rejects it. -/
def jsonDecode : SType → Py → Option Py
  | .scalar t, .atom a => if validSc t a then some (.atom a) else none
  | .slist t, .pylist ws => if ws.all (validSc t) then some (.pylist ws) else none
  | .sset t, .pylist ws =>
    if ws.all (validSc t) then some (.pyset (ws.dedup.insertionSort scaLe)) else none
  | .sdict props, .pydict kvs => if validDict props kvs then some (.pydict kvs) else none
  | _, _ => none

/-- Modelled from the spec: schema.str_encode, the canonical string encoding
of the schema framework, at the uses the module makes of it (the text codec
is resolved for UUID columns; the string fallback also uses it). -/
def strEncode : SType → Py → Option Py
  | .scalar .suuid, .atom (.vuuid u) => some (.atom (.vstr u))
  | .scalar .sstr, .atom (.vstr s) => some (.atom (.vstr s))
  | _, _ => none

/-- Modelled from the spec: schema.str_decode, partial inverse of
strEncode. -/
def strDecode : SType → Py → Option Py
  | .scalar .suuid, .atom (.vstr s) => some (.atom (.vuuid s))
  | .scalar .sstr, .atom (.vstr s) => some (.atom (.vstr s))
  | _, _ => none

/-- Model of json.dumps on one scalar: serializes the JSON-representable
scalars to text, fails (TypeError) on the rest. -/
def dumpsSca : Sca → Option String
  | .vnone => some ("null")
  | .vbool b => some (cond b ("true") ("false"))
  | .vint n => some (toString n)
  | .vfloat bits => some ("f" ++ toString bits)
  | .vstr s => some ("\"" ++ s ++ "\"")
  | _ => none

/-- Model of json.dumps: serializes a JSON-representable value to its JSON
text. -/
def dumps : Py → Option String
  | .atom a => dumpsSca a
  | .pylist xs =>
    (xs.mapM dumpsSca).map (fun ss => "[" ++ String.intercalate (",") ss ++ "]")
  | .pydict kvs =>
    (kvs.mapM (fun kv => (dumpsSca kv.2).map (fun s => "\"" ++ kv.1 ++ "\":" ++ s))).map
      (fun ss => "\x7b" ++ String.intercalate (",") ss ++ "\x7d")
  | .pyset _ => none

/-- Model of the Python builtin bytes(): identity on bytes, copies the
contents of a bytearray or memoryview into a bytes object, a nonnegative int
n gives n zero bytes, anything else raises. -/
def pyBytes : Py → Option Py
  | .atom (.vbytes bs) => some (.atom (.vbytes bs))
  | .atom (.vbytearray bs) => some (.atom (.vbytes bs))
  | .atom (.vmemoryview bs) => some (.atom (.vbytes bs))
  | .atom (.vint n) => if 0 ≤ n then some (.atom (.vbytes (List.replicate n.toNat 0))) else none
  | _ => none

/-- Buffer-like wire values (the driver may return any of them for a BYTEA
column). -/
def bufferLike : Py → Bool
  | .atom (.vbytes _) => true
  | .atom (.vbytearray _) => true
  | .atom (.vmemoryview _) => true
  | _ => false

/-- One codec: an encode/decode pair, each taking the column's schema and a
value, failing by none where the Python code would raise. -/
structure Codec where
  encode : SType → Py → Option Py
  decode : SType → Py → Option Py

/-- Embedding of class _JSONCodec: encode is json.dumps of schema.json_encode
(the result is a Python str); decode applies schema.json_decode directly to
the wire value. -/
def _JSONCodec : Codec :=
  ⟨fun sch v => (jsonEncode sch v).bind (fun j => (dumps j).map (fun s => Py.atom (Sca.vstr s))),
   fun sch w => jsonDecode sch w⟩

/-- Embedding of class _TextCodec: schema.str_encode / schema.str_decode. -/
def _TextCodec : Codec := ⟨strEncode, strDecode⟩

/-- Embedding of class _PassCodec: both directions are the identity. -/
def _PassCodec : Codec := ⟨fun _ v => some v, fun _ v => some v⟩

/-- Embedding of class _BytesCodec: encode is the identity, decode applies
the bytes() builtin to the wire value. -/
def _BytesCodec : Codec := ⟨fun _ v => some v, fun _ w => pyBytes w⟩

/-- Keys of the module-level codec table: the schema classes of roax.schema
(s.dict, s.list, s.set, s.int, s.float, s.bool, s.bytes, s.date, s.datetime,
s.uuid) plus s.str, which the table does not mention. -/
inductive CodecKey where
  | kdict
  | klist
  | kset
  | kint
  | kfloat
  | kbool
  | kbytes
  | kdate
  | kdatetime
  | kuuid
  | kstr
deriving DecidableEq

/-- Tags naming the four module-level codec instances (_json, _text, _pass,
_bytes). -/
inductive CodecTag where
  | tjson
  | ttext
  | tpass
  | tbytes
deriving DecidableEq

/-- Dereference a codec tag to the codec instance it names. -/
def codecOf : CodecTag → Codec
  | .tjson => _JSONCodec
  | .ttext => _TextCodec
  | .tpass => _PassCodec
  | .tbytes => _BytesCodec

/-- Embedding of the module-level _codecs dict (lines 54-65), as lookup by
schema class.  The table has exactly the source's ten entries; s.str has no
entry. -/
def _codecs : CodecKey → Option CodecTag
  | .kdict => some .tjson
  | .klist => some .tjson
  | .kset => some .tjson
  | .kint => some .tpass
  | .kfloat => some .tpass
  | .kbool => some .tpass
  | .kbytes => some .tbytes
  | .kdate => some .tpass
  | .kdatetime => some .tpass
  | .kuuid => some .ttext
  | .kstr => none

/-- Schema class of an abstract schema type (the key the codec table is
consulted with). -/
def codecKey : SType → CodecKey
  | .scalar .sint => .kint
  | .scalar .sfloat => .kfloat
  | .scalar .sbool => .kbool
  | .scalar .sbytes => .kbytes
  | .scalar .sdate => .kdate
  | .scalar .sdatetime => .kdatetime
  | .scalar .suuid => .kuuid
  | .scalar .sstr => .kstr
  | .sdict _ => .kdict
  | .slist _ => .klist
  | .sset _ => .kset

/-- Modelled from the spec: full codec resolution.  The exact-match table is
consulted first; a scalar absent from it falls back to the schema framework's
canonical string codec (the roax.db layer performing this lives outside
src/). -/
def resolveCodec (k : CodecKey) : Option CodecTag :=
  match _codecs k with
  | some t => some t
  | none =>
    match k with
    | .kstr => some .ttext
    | _ => none

/-- Modelled from the spec: native SQL column types of the asynchronous
successor implementation for scalar types (its tests pin BIGINT for int and
TEXT for str). -/
def sqlScalar : Sc → String
  | .sint => "BIGINT"
  | .sfloat => "DOUBLE PRECISION"
  | .sbool => "BOOLEAN"
  | .sbytes => "BYTEA"
  | .sdate => "DATE"
  | .sdatetime => "TIMESTAMPTZ"
  | .suuid => "UUID"
  | .sstr => "TEXT"

/-- Modelled from the spec: abstract types of the asynchronous successor's
codec resolution, recursive in the element type of lists and sets; fjson
stands for a type with only a JSON native representation (a record type). -/
inductive FType where
  | fscalar (t : Sc)
  | flist (t : FType)
  | fset (t : FType)
  | fjson
deriving DecidableEq

/-- Modelled from the spec: whether a type has an array-capable native
representation (scalars do; containers and JSON-represented types do not). -/
def arrayCapable : FType → Bool
  | .fscalar _ => true
  | _ => false

/-- Modelled from the spec: native SQL type produced by the asynchronous
successor's codec resolution.  A list or set of an array-capable T gets the
native array of T's native type, and falls back to JSONB otherwise. -/
def sqlTypeF : FType → String
  | .fscalar t => sqlScalar t
  | .flist t => if arrayCapable t then sqlTypeF t ++ "[]" else "JSONB"
  | .fset t => if arrayCapable t then sqlTypeF t ++ "[]" else "JSONB"
  | .fjson => "JSONB"

/-- Thread-local connection state of one logical execution context
(threading.local in Database.__init__): the connection attribute (absent
until the outermost entry stores it, deleted when the outermost exit removes
it) and the nesting count. -/
structure LocalState where
  connection : Option Nat
  count : Nat
deriving DecidableEq

/-- State of the keyed psycopg2 ThreadedConnectionPool: the available
connections and the (thread key, connection) bindings currently checked
out. -/
structure PoolState where
  free : List Nat
  used : List (Nat × Nat)
deriving DecidableEq

/-- Lookup of a key's binding in the pool's checked-out map. -/
def lookupKey : List (Nat × Nat) → Nat → Option Nat
  | [], _ => none
  | (k, c) :: rest, key => if k = key then some c else lookupKey rest key

/-- Removal of a key's bindings from the pool's checked-out map. -/
def dropKey : List (Nat × Nat) → Nat → List (Nat × Nat)
  | [], _ => []
  | (k, c) :: rest, key => if k = key then dropKey rest key else (k, c) :: dropKey rest key

/-- Model of ThreadedConnectionPool.getconn(key): the binding for the key if
one exists, otherwise an available connection is bound to the key; fails
(PoolError) when none is available. -/
def getconn (p : PoolState) (key : Nat) : Option (Nat × PoolState) :=
  match lookupKey p.used key with
  | some c => some (c, p)
  | none =>
    match p.free with
    | [] => none
    | c :: rest => some (c, ⟨rest, (key, c) :: p.used⟩)

/-- Model of ThreadedConnectionPool.putconn(conn, key): the key's binding is
removed and the connection returns to the available list. -/
def putconn (p : PoolState) (key : Nat) (c : Nat) : PoolState :=
  ⟨c :: p.free, dropKey p.used key⟩

/-- Entry half of Database.connect (lines 98-105): if the thread-local
connection attribute exists the count is incremented and the same connection
is yielded; otherwise a connection is checked out of the pool under the
thread's key and the local state is initialised to count 1.  If the checkout
raises, no local attribute is touched and the error propagates. -/
def connectEnter (tid : Nat) (st : LocalState) (p : PoolState) :
    Except Unit (LocalState × PoolState × Nat) :=
  match st.connection with
  | some c => .ok ({ st with count := st.count + 1 }, p, c)
  | none =>
    match getconn p tid with
    | none => .error ()
    | some (c, p2) => .ok (⟨some c, 1⟩, p2, c)

/-- Observable actions of the exit half of Database.connect, in issue
order. -/
inductive ConnAct where
  | commit
  | rollback
  | putback
deriving DecidableEq

/-- Exit half of Database.connect (lines 106-120), for a body that finished
with bodyErr (none = no error) while the yielded connection is c.
rollbackRes carries the outcome of connection.rollback() if it is reached
(none = success, some e = rollback raised e).  Returns the new local state,
the new pool state, the actions issued in order, and the error that
propagates to the caller.  Mirrors the source: commit only when count is 1
and the body succeeded; rollback only when count is 1 and the body raised, a
rollback failure superseding the body's error; the finally block always
decrements the count and, at zero, deletes the local attribute and returns
the connection to the pool. -/
def connectExit (tid : Nat) (bodyErr : Option Nat) (rollbackRes : Option Nat)
    (st : LocalState) (p : PoolState) (c : Nat) :
    LocalState × PoolState × List ConnAct × Option Nat :=
  match bodyErr with
  | none =>
    if st.count == 1 then
      (⟨none, st.count - 1⟩, putconn p tid c, [ConnAct.commit, ConnAct.putback], none)
    else
      ({ st with count := st.count - 1 }, p, [], none)
  | some e =>
    if st.count == 1 then
      match rollbackRes with
      | none =>
        (⟨none, st.count - 1⟩, putconn p tid c, [ConnAct.rollback, ConnAct.putback], some e)
      | some e2 =>
        (⟨none, st.count - 1⟩, putconn p tid c, [ConnAct.rollback, ConnAct.putback], some e2)
    else
      ({ st with count := st.count - 1 }, p, [], some e)

/-- Global state: the shared pool plus the per-thread local states. -/
structure GState where
  pool : PoolState
  locals : Nat → LocalState

/-- Events of the multi-threaded system: a thread enters Database.connect, or
exits it (with the body's error, if any, and the rollback outcome should a
rollback be reached). -/
inductive DbEv where
  | enter (tid : Nat)
  | exitEv (tid : Nat) (bodyErr : Option Nat) (rollbackRes : Option Nat)

/-- One step of the multi-threaded system.  A failed entry (pool exhausted)
leaves the state unchanged; an exit event for a thread holding no connection
is ill-formed (the context manager cannot exit before entering) and is a
no-op. -/
def stepEv (s : GState) : DbEv → GState
  | .enter tid =>
    match connectEnter tid (s.locals tid) s.pool with
    | .error _ => s
    | .ok (st, p, _) => ⟨p, fun t => if t = tid then st else s.locals t⟩
  | .exitEv tid bodyErr rollbackRes =>
    match (s.locals tid).connection with
    | none => s
    | some c =>
      let r := connectExit tid bodyErr rollbackRes (s.locals tid) s.pool c
      ⟨r.2.1, fun t => if t = tid then r.1 else s.locals t⟩

/-- Initial state: the pool holds the configured connections, every thread is
idle with no connection attribute and zero count. -/
def initState (free : List Nat) : GState :=
  ⟨⟨free, []⟩, fun _ => ⟨none, 0⟩⟩

/-- States reachable from the initial state by connect entries and exits. -/
inductive Reachable (free : List Nat) : GState → Prop
  | base : Reachable free (initState free)
  | next (s : GState) (e : DbEv) : Reachable free s → Reachable free (stepEv s e)

/-- Master invariant: each thread's local connection attribute agrees with
the pool's binding for its key; the count is positive exactly when the
attribute exists; bound keys are distinct; and no connection appears twice
among the available list and the bindings. -/
def DbInv (s : GState) : Prop :=
  (∀ t, (s.locals t).connection = lookupKey s.pool.used t) ∧
  (∀ t, 0 < (s.locals t).count ↔ ((s.locals t).connection).isSome) ∧
  (s.pool.used.map Prod.fst).Nodup ∧
  (s.pool.free ++ s.pool.used.map Prod.snd).Nodup

/-- Events of a single logical execution context. -/
inductive SEv where
  | enter
  | exitS (bodyErr : Option Nat) (rollbackRes : Option Nat)

/-- State of the single-context run: the context's local state and the
pool. -/
structure SState where
  loc : LocalState
  pool : PoolState
deriving DecidableEq

/-- One step of the single-context run, also reporting how many finalizations
(returns of the handle to the pool) the step performed. -/
def stepS (tid : Nat) (s : SState) : SEv → SState × Nat
  | .enter =>
    match connectEnter tid s.loc s.pool with
    | .error _ => (s, 0)
    | .ok (st, p, _) => (⟨st, p⟩, 0)
  | .exitS bodyErr rollbackRes =>
    match s.loc.connection with
    | none => (s, 0)
    | some c =>
      let r := connectExit tid bodyErr rollbackRes s.loc s.pool c
      (⟨r.1, r.2.1⟩, if ConnAct.putback ∈ r.2.2.1 then 1 else 0)

/-- Run of a single-context event trace, accumulating the number of
finalizations performed. -/
def runS (tid : Nat) : List SEv → SState → SState × Nat
  | [], s => (s, 0)
  | e :: es, s =>
    let r := stepS tid s e
    let rest := runS tid es r.1
    (rest.1, r.2 + rest.2)

/-- Well-formed traces from a given depth: an exit only happens inside an
open scope (the context manager protocol guarantees each exit is paired with
a completed entry). -/
def wfS : List SEv → Nat → Bool
  | [], _ => true
  | .enter :: es, d => wfS es (d + 1)
  | .exitS _ _ :: es, d => decide (0 < d) && wfS es (d - 1)

/-- Nesting depth after a trace, starting from a given depth. -/
def depthAfter : List SEv → Nat → Nat
  | [], d => d
  | .enter :: es, d => depthAfter es (d + 1)
  | .exitS _ _ :: es, d => depthAfter es (d - 1)

/-- Number of outermost-scope entries in a trace (entries made at depth
zero). -/
def outerEnters : List SEv → Nat → Nat
  | [], _ => 0
  | .enter :: es, d => (if d = 0 then 1 else 0) + outerEnters es (d + 1)
  | .exitS _ _ :: es, d => outerEnters es (d - 1)

/-- Number of exits in a trace that take the depth to zero (exits made at
depth one). -/
def finExits : List SEv → Nat → Nat
  | [], _ => 0
  | .enter :: es, d => finExits es (d + 1)
  | .exitS _ _ :: es, d => (if d = 1 then 1 else 0) + finExits es (d - 1)

/-- Initial single-context state: idle, with one connection available. -/
def initS (c0 : Nat) : SState := ⟨⟨none, 0⟩, ⟨[c0], []⟩⟩

/-- Invariant of the single-context run at depth d: the count equals d, and
the connection is either still in the pool (idle) or bound to the context
(active). -/
def InvS (tid c0 : Nat) (d : Nat) (s : SState) : Prop :=
  s.loc.count = d ∧
  (if d = 0 then s.loc.connection = none ∧ s.pool = ⟨[c0], []⟩
   else s.loc.connection = some c0 ∧ s.pool = ⟨[], [(tid, c0)]⟩)


/-- Lookup after removing all bindings of a key fails. -/
theorem lookupKey_dropKey_self (l : List (Nat × Nat)) (k : Nat) :
    lookupKey (dropKey l k) k = none := by
  induction l with
  | nil => rfl
  | cons kv rest ih =>
    obtain ⟨k2, c⟩ := kv
    by_cases hk : k2 = k
    · simpa [dropKey, hk] using ih
    · simpa [dropKey, lookupKey, hk] using ih

/-- Removing the bindings of one key does not change lookups of other
keys. -/
theorem lookupKey_dropKey_ne (l : List (Nat × Nat)) (t k : Nat) (h : t ≠ k) :
    lookupKey (dropKey l k) t = lookupKey l t := by
  induction l with
  | nil => rfl
  | cons kv rest ih =>
    obtain ⟨k2, c⟩ := kv
    by_cases hk : k2 = k
    · have hne : ¬(k = t) := fun hh => h hh.symm
      simpa [dropKey, lookupKey, hk, hne] using ih
    · by_cases ht : k2 = t
      · simp [dropKey, lookupKey, hk, ht, h]
      · simpa [dropKey, lookupKey, hk, ht] using ih

/-- A key that fails lookup is not among the keys. -/
theorem not_mem_keys_of_lookupKey_none (l : List (Nat × Nat)) (k : Nat)
    (h : lookupKey l k = none) : k ∉ l.map Prod.fst := by
  induction l with
  | nil => simp
  | cons kv rest ih =>
    obtain ⟨k2, c⟩ := kv
    by_cases hk : k2 = k
    · simp [lookupKey, hk] at h
    · rw [lookupKey, if_neg hk] at h
      rw [List.map_cons]
      intro hm
      rcases List.mem_cons.mp hm with he | hm2
      · exact hk he.symm
      · exact ih h hm2

/-- A successful lookup witnesses membership. -/
theorem mem_of_lookupKey_some (l : List (Nat × Nat)) (k c : Nat)
    (h : lookupKey l k = some c) : (k, c) ∈ l := by
  induction l with
  | nil => exact absurd h (by simp [lookupKey])
  | cons kv rest ih =>
    obtain ⟨k2, c2⟩ := kv
    by_cases hk : k2 = k
    · rw [lookupKey, if_pos hk] at h
      obtain rfl : c2 = c := Option.some.inj h
      simp [hk]
    · rw [lookupKey, if_neg hk] at h
      exact List.mem_cons_of_mem _ (ih h)

/-- Removal of an unbound key leaves the map unchanged. -/
theorem dropKey_eq_self (l : List (Nat × Nat)) (k : Nat)
    (h : k ∉ l.map Prod.fst) : dropKey l k = l := by
  induction l with
  | nil => rfl
  | cons kv rest ih =>
    obtain ⟨k2, c⟩ := kv
    rw [List.map_cons] at h
    have h1 : ¬(k2 = k) := fun he => h (by simp [he])
    rw [dropKey, if_neg h1, ih (fun hm => h (List.mem_cons_of_mem _ hm))]

/-- With distinct keys, removing a bound key removes exactly its connection
from the multiset of bound connections. -/
theorem snd_perm_of_lookupKey (l : List (Nat × Nat)) (k c : Nat)
    (hk : (l.map Prod.fst).Nodup) (hl : lookupKey l k = some c) :
    List.Perm (l.map Prod.snd) (c :: (dropKey l k).map Prod.snd) := by
  induction l with
  | nil => exact absurd hl (by simp [lookupKey])
  | cons kv rest ih =>
    obtain ⟨k2, c2⟩ := kv
    rw [List.map_cons] at hk
    have hkeys := List.nodup_cons.mp hk
    by_cases hkk : k2 = k
    · rw [lookupKey, if_pos hkk] at hl
      obtain rfl : c2 = c := Option.some.inj hl
      rw [dropKey, if_pos hkk]
      rw [dropKey_eq_self rest k (by simpa [hkk] using hkeys.1)]
      rw [List.map_cons]
    · rw [lookupKey, if_neg hkk] at hl
      rw [dropKey, if_neg hkk, List.map_cons, List.map_cons]
      exact ((ih hkeys.2 hl).cons c2).trans (List.Perm.swap c c2 _)

/-- Two bindings of the same connection have the same key when the bound
connections are duplicate-free. -/
theorem key_eq_of_snd_nodup (l : List (Nat × Nat)) (t1 t2 c : Nat)
    (hn : (l.map Prod.snd).Nodup) (h1 : (t1, c) ∈ l) (h2 : (t2, c) ∈ l) :
    t1 = t2 := by
  induction l with
  | nil => exact absurd h1 (by simp)
  | cons kv rest ih =>
    obtain ⟨k2, c2⟩ := kv
    rw [List.map_cons] at hn
    have hparts := List.nodup_cons.mp hn
    rcases List.mem_cons.mp h1 with he1 | hm1
    · rcases List.mem_cons.mp h2 with he2 | hm2
      · rw [Prod.mk.injEq] at he1 he2
        exact he1.1.trans he2.1.symm
      · rw [Prod.mk.injEq] at he1
        obtain ⟨rfl, rfl⟩ := he1
        exact absurd (List.mem_map_of_mem Prod.snd hm2) hparts.1
    · rcases List.mem_cons.mp h2 with he2 | hm2
      · rw [Prod.mk.injEq] at he2
        obtain ⟨rfl, rfl⟩ := he2
        exact absurd (List.mem_map_of_mem Prod.snd hm1) hparts.1
      · exact ih hparts.2 hm1 hm2

/-- Keys of the map after a removal form a sublist of the original keys. -/
theorem dropKey_keys_sublist (l : List (Nat × Nat)) (k : Nat) :
    List.Sublist ((dropKey l k).map Prod.fst) (l.map Prod.fst) := by
  induction l with
  | nil => simp [dropKey]
  | cons kv rest ih =>
    obtain ⟨k2, c⟩ := kv
    by_cases hk : k2 = k
    · rw [dropKey, if_pos hk, List.map_cons]
      exact ih.trans (List.sublist_cons_self _ _)
    · rw [dropKey, if_neg hk, List.map_cons, List.map_cons]
      exact ih.cons₂ _

/-- The invariant holds initially when the configured connections are
distinct. -/
theorem dbInv_init (free : List Nat) (hf : free.Nodup) : DbInv (initState free) := by
  refine ⟨fun t => rfl, fun t => by simp [initState], by simp [initState], ?_⟩
  simpa [initState] using hf

/-- The invariant is preserved by every entry and exit event. -/
theorem dbInv_step (s : GState) (e : DbEv) (h : DbInv s) : DbInv (stepEv s e) := by
  obtain ⟨h1, h2, h3, h4⟩ := h
  cases e with
  | enter tid =>
    cases hc : (s.locals tid).connection with
    | some c =>
      simp only [stepEv, connectEnter, hc]
      refine ⟨?_, ?_, h3, h4⟩
      · intro t
        by_cases htid : t = tid
        · subst htid
          simpa [hc] using h1 t
        · simpa [htid] using h1 t
      · intro t
        by_cases htid : t = tid
        · subst htid
          simp [hc]
        · simpa [htid] using h2 t
    | none =>
      have hlk : lookupKey s.pool.used tid = none := (h1 tid).symm.trans hc |>.symm ▸ rfl
      cases hfree : s.pool.free with
      | nil =>
        simp only [stepEv, connectEnter, hc, getconn, hlk, hfree]
        exact ⟨h1, h2, h3, h4⟩
      | cons c rest =>
        simp only [stepEv, connectEnter, hc, getconn, hlk, hfree]
        refine ⟨?_, ?_, ?_, ?_⟩
        · intro t
          by_cases htid : t = tid
          · subst htid
            simp [lookupKey]
          · have hne : ¬(tid = t) := fun hh => htid hh.symm
            simp only [htid, if_false, lookupKey, if_neg hne]
            exact h1 t
        · intro t
          by_cases htid : t = tid
          · subst htid
            simp
          · simpa [htid] using h2 t
        · rw [List.map_cons]
          exact List.nodup_cons.mpr ⟨not_mem_keys_of_lookupKey_none _ _ hlk, h3⟩
        · have hperm : List.Perm (s.pool.free ++ s.pool.used.map Prod.snd)
              (rest ++ c :: s.pool.used.map Prod.snd) := by
            rw [hfree]
            exact (List.perm_middle).symm
          exact (hperm.nodup h4 : _)
  | exitEv tid bodyErr rollbackRes =>
    cases hc : (s.locals tid).connection with
    | none =>
      simp only [stepEv, hc]
      exact ⟨h1, h2, h3, h4⟩
    | some c =>
      have hlk : lookupKey s.pool.used tid = some c := (h1 tid).symm.trans hc
      by_cases hone : (s.locals tid).count = 1
      · have hred : stepEv s (DbEv.exitEv tid bodyErr rollbackRes) =
            ⟨putconn s.pool tid c,
             fun t => if t = tid then ⟨none, (s.locals tid).count - 1⟩ else s.locals t⟩ := by
          cases bodyErr with
          | none => simp [stepEv, hc, connectExit, hone]
          | some e0 =>
            cases rollbackRes with
            | none => simp [stepEv, hc, connectExit, hone]
            | some e2 => simp [stepEv, hc, connectExit, hone]
        rw [hred]
        refine ⟨?_, ?_, ?_, ?_⟩
        · intro t
          by_cases htid : t = tid
          · subst htid
            simp [putconn, lookupKey_dropKey_self]
          · simp only [htid, if_false, putconn]
            exact (h1 t).trans (lookupKey_dropKey_ne _ _ _ htid).symm
        · intro t
          by_cases htid : t = tid
          · subst htid
            simp [hone]
          · simpa [htid] using h2 t
        · exact h3.sublist (dropKey_keys_sublist _ _)
        · have hperm : List.Perm (s.pool.free ++ s.pool.used.map Prod.snd)
              (c :: (s.pool.free ++ (dropKey s.pool.used tid).map Prod.snd)) :=
            ((snd_perm_of_lookupKey _ _ _ h3 hlk).append_left s.pool.free).trans
              List.perm_middle
          exact (hperm.nodup h4 : _)
      · have hpos : 0 < (s.locals tid).count := (h2 tid).mpr (by simp [hc])
        have htwo : 2 ≤ (s.locals tid).count := by omega
        have hred : stepEv s (DbEv.exitEv tid bodyErr rollbackRes) =
            ⟨s.pool,
             fun t => if t = tid then
               { s.locals tid with count := (s.locals tid).count - 1 } else s.locals t⟩ := by
          cases bodyErr with
          | none => simp [stepEv, hc, connectExit, hone]
          | some e0 => simp [stepEv, hc, connectExit, hone]
        rw [hred]
        refine ⟨?_, ?_, h3, h4⟩
        · intro t
          by_cases htid : t = tid
          · subst htid
            simpa using h1 t
          · simpa [htid] using h1 t
        · intro t
          by_cases htid : t = tid
          · subst htid
            simp [hc]
            omega
          · simpa [htid] using h2 t

/-- Every reachable state satisfies the invariant. -/
theorem dbInv_reachable (free : List Nat) (s : GState) (hf : free.Nodup)
    (hr : Reachable free s) : DbInv s := by
  induction hr with
  | base => exact dbInv_init free hf
  | next s2 e _ ih => exact dbInv_step s2 e ih

/-- An entry step of the single-context run performs no finalization and
takes the invariant from depth d to depth d + 1. -/
theorem stepS_enter (tid c0 d : Nat) (s : SState) (h : InvS tid c0 d s) :
    (stepS tid s SEv.enter).2 = 0 ∧ InvS tid c0 (d + 1) (stepS tid s SEv.enter).1 := by
  obtain ⟨hcount, hrest⟩ := h
  by_cases hd : d = 0
  · subst hd
    rw [if_pos rfl] at hrest
    obtain ⟨hconn, hpool⟩ := hrest
    refine ⟨?_, ?_, ?_⟩
    · simp [stepS, connectEnter, hconn, hpool, getconn, lookupKey]
    · simp [stepS, connectEnter, hconn, hpool, getconn, lookupKey]
    · rw [if_neg (by omega)]
      constructor
      · simp [stepS, connectEnter, hconn, hpool, getconn, lookupKey]
      · simp [stepS, connectEnter, hconn, hpool, getconn, lookupKey]
  · rw [if_neg hd] at hrest
    obtain ⟨hconn, hpool⟩ := hrest
    refine ⟨?_, ?_, ?_⟩
    · simp [stepS, connectEnter, hconn]
    · simp [stepS, connectEnter, hconn]
      omega
    · rw [if_neg (by omega)]
      constructor
      · simp [stepS, connectEnter, hconn]
      · simp [stepS, connectEnter, hconn, hpool]

/-- An exit step of the single-context run finalizes exactly when it takes
the depth to zero, and takes the invariant from depth d to depth d - 1. -/
theorem stepS_exit (tid c0 d : Nat) (s : SState) (be rb : Option Nat)
    (h : InvS tid c0 d s) (hd : 0 < d) :
    ((stepS tid s (SEv.exitS be rb)).2 = if d = 1 then 1 else 0) ∧
    InvS tid c0 (d - 1) (stepS tid s (SEv.exitS be rb)).1 := by
  obtain ⟨hcount, hrest⟩ := h
  rw [if_neg (by omega)] at hrest
  obtain ⟨hconn, hpool⟩ := hrest
  by_cases hone : d = 1
  · subst hone
    have hc1 : s.loc.count = 1 := hcount
    have hred : stepS tid s (SEv.exitS be rb) = (⟨⟨none, 0⟩, ⟨[c0], []⟩⟩, 1) := by
      cases be with
      | none => simp [stepS, connectExit, hconn, hc1, hpool, putconn, dropKey]
      | some e0 =>
        cases rb with
        | none => simp [stepS, connectExit, hconn, hc1, hpool, putconn, dropKey]
        | some e2 => simp [stepS, connectExit, hconn, hc1, hpool, putconn, dropKey]
    rw [hred]
    exact ⟨rfl, rfl, by simp⟩
  · have hcne : ¬(s.loc.count = 1) := by omega
    have hred : stepS tid s (SEv.exitS be rb) =
        (⟨{ s.loc with count := s.loc.count - 1 }, s.pool⟩, 0) := by
      cases be with
      | none => simp [stepS, connectExit, hconn, hcne]
      | some e0 => simp [stepS, connectExit, hconn, hcne]
    rw [hred]
    refine ⟨by rw [if_neg hone], ?_, ?_⟩
    · simp
      omega
    · rw [if_neg (by omega)]
      exact ⟨by simp [hconn], by simp [hpool]⟩

/-- Finalization count of a well-formed single-context run: every step
finalizes exactly when it is an exit at depth one. -/
theorem runS_fins (tid c0 : Nat) (es : List SEv) :
    ∀ (d : Nat) (s : SState), InvS tid c0 d s → wfS es d = true →
    (runS tid es s).2 = finExits es d := by
  induction es with
  | nil =>
    intro d s _ _
    rfl
  | cons e rest ih =>
    intro d s hinv hwf
    cases e with
    | enter =>
      obtain ⟨hf, hinv2⟩ := stepS_enter tid c0 d s hinv
      have hwf2 : wfS rest (d + 1) = true := hwf
      simp only [runS, finExits]
      rw [hf, ih (d + 1) _ hinv2 hwf2]
      omega
    | exitS be rb =>
      have hwfp : 0 < d ∧ wfS rest (d - 1) = true := by
        have h0 := hwf
        simp only [wfS, Bool.and_eq_true, decide_eq_true_eq] at h0
        exact h0
      obtain ⟨hf, hinv2⟩ := stepS_exit tid c0 d s be rb hinv hwfp.1
      simp only [runS, finExits]
      rw [hf, ih (d - 1) _ hinv2 hwfp.2]

/-- Walk identity: in a well-formed trace, the number of exits reaching depth
zero balances the number of entries made at depth zero, up to whether a scope
is open at either end. -/
theorem finExits_outer (es : List SEv) :
    ∀ d : Nat, wfS es d = true →
    finExits es d + min 1 (depthAfter es d) = outerEnters es d + min 1 d := by
  induction es with
  | nil =>
    intro d _
    rfl
  | cons e rest ih =>
    intro d hwf
    cases e with
    | enter =>
      have h2 := ih (d + 1) hwf
      rw [finExits, outerEnters, depthAfter]
      by_cases hd : d = 0
      · rw [if_pos hd]
        omega
      · rw [if_neg hd]
        omega
    | exitS be rb =>
      have h0 := hwf
      simp only [wfS, Bool.and_eq_true, decide_eq_true_eq] at h0
      have h2 := ih (d - 1) h0.2
      rw [finExits, outerEnters, depthAfter]
      by_cases hone : d = 1
      · rw [if_pos hone]
        omega
      · rw [if_neg hone]
        omega

/-- Round trip at the structured JSON level: schema json_decode inverts
schema json_encode on every valid value (for sets, up to the order the
native array loses, which the canonical form absorbs). -/
theorem json_roundtrip (sch : SType) (v : Py) (h : valid sch v = true) :
    (jsonEncode sch v).bind (jsonDecode sch) = some v := by
  cases sch with
  | scalar t =>
    cases v with
    | atom a =>
      have hv : validSc t a = true := h
      simp [jsonEncode, jsonDecode, hv]
    | pylist xs => exact absurd h (by simp [valid])
    | pydict kvs => exact absurd h (by simp [valid])
    | pyset xs => exact absurd h (by simp [valid])
  | slist t =>
    cases v with
    | pylist xs =>
      have hv : xs.all (validSc t) = true := h
      have hv2 : ∀ x ∈ xs, validSc t x = true := by simpa using hv
      simp [jsonEncode, jsonDecode, hv]
      exact hv2
    | atom a => exact absurd h (by simp [valid])
    | pydict kvs => exact absurd h (by simp [valid])
    | pyset xs => exact absurd h (by simp [valid])
  | sset t =>
    cases v with
    | pyset xs =>
      have hv := h
      simp only [valid, Bool.and_eq_true, beq_iff_eq] at hv
      obtain ⟨⟨hall, hsort⟩, hded⟩ := hv
      have hpair : xs.Pairwise scaLe := of_decide_eq_true (by simpa [sortedKeys] using hsort)
      have hsorted : List.Sorted scaLe xs := hpair
      have hall2 : ∀ x ∈ xs, validSc t x = true := by simpa using hall
      simp [jsonEncode, jsonDecode, hall, hded, hsorted.insertionSort_eq]
      exact hall2
    | atom a => exact absurd h (by simp [valid])
    | pylist xs => exact absurd h (by simp [valid])
    | pydict kvs => exact absurd h (by simp [valid])
  | sdict props =>
    cases v with
    | pydict kvs =>
      have hv : validDict props kvs = true := h
      simp [jsonEncode, jsonDecode, hv]
    | atom a => exact absurd h (by simp [valid])
    | pylist xs => exact absurd h (by simp [valid])
    | pyset xs => exact absurd h (by simp [valid])

/-- C1: a nested entry of Database.connect (the thread-local connection
attribute set, depth positive) yields the very handle already held,
increments the depth by one and leaves the pool untouched; only a first
entry (depth 0 to 1) checks a handle out of the pool, binding it to the
thread's key; and in every reachable state two distinct logical execution
contexts never hold the same checked-out handle. -/
theorem c1_connect_reentrant :
    (∀ tid st p c0, st.connection = some c0 → 0 < st.count →
      connectEnter tid st p = Except.ok ({ st with count := st.count + 1 }, p, c0)) ∧
    (∀ tid st p c p2, st.connection = none → getconn p tid = some (c, p2) →
      connectEnter tid st p = Except.ok (⟨some c, 1⟩, p2, c)) ∧
    (∀ free s, free.Nodup → Reachable free s → ∀ t1 t2 c, t1 ≠ t2 →
      (s.locals t1).connection = some c → (s.locals t2).connection ≠ some c) := by
  refine ⟨?_, ?_, ?_⟩
  · intro tid st p c0 hc _
    simp [connectEnter, hc]
  · intro tid st p c p2 hc hg
    simp [connectEnter, hc, hg]
  · intro free s hf hr t1 t2 c hne hc1 hc2
    obtain ⟨h1, _, _, h4⟩ := dbInv_reachable free s hf hr
    have m1 := mem_of_lookupKey_some s.pool.used t1 c ((h1 t1).symm.trans hc1)
    have m2 := mem_of_lookupKey_some s.pool.used t2 c ((h1 t2).symm.trans hc2)
    exact hne (key_eq_of_snd_nodup s.pool.used t1 t2 c h4.of_append_right m1 m2)

/-- Witness for C1 at concrete inputs: a nested entry returns the held
handle 7 with depth 2 to 3 and the pool untouched; a first entry checks 9
out of the pool; after two different threads enter, thread 1 does not hold
thread 0's handle. -/
theorem c1_connect_reentrant_witness :
    connectEnter 5 ⟨some 7, 2⟩ ⟨[9], []⟩ = Except.ok (⟨some 7, 3⟩, ⟨[9], []⟩, 7) ∧
    connectEnter 5 ⟨none, 0⟩ ⟨[9], []⟩ = Except.ok (⟨some 9, 1⟩, ⟨[], [(5, 9)]⟩, 9) ∧
    ((stepEv (stepEv (initState [10, 20]) (DbEv.enter 0)) (DbEv.enter 1)).locals 1).connection ≠
      some 10 :=
  ⟨c1_connect_reentrant.1 5 ⟨some 7, 2⟩ ⟨[9], []⟩ 7 rfl (by decide),
   c1_connect_reentrant.2.1 5 ⟨none, 0⟩ ⟨[9], []⟩ 9 ⟨[], [(5, 9)]⟩ rfl rfl,
   c1_connect_reentrant.2.2 [10, 20] _ (by decide)
     (Reachable.next _ (DbEv.enter 1) (Reachable.next _ (DbEv.enter 0) Reachable.base))
     0 1 10 (by decide) (by decide)⟩

/-- C2: every exit of a Database.connect scope decrements the depth; an exit
from depth 1 after a body without error commits and returns the handle to
the pool, an exit from depth 1 after an error rolls back and returns the
handle to the pool, and an exit that leaves the depth positive performs no
action at all (neither commit nor rollback nor pool return). -/
theorem c2_outermost_exit (tid : Nat) (bodyErr rollbackRes : Option Nat)
    (st : LocalState) (p : PoolState) (c : Nat) (h : 1 ≤ st.count) :
    ((connectExit tid bodyErr rollbackRes st p c).1.count = st.count - 1) ∧
    (st.count = 1 → bodyErr = none →
      (connectExit tid bodyErr rollbackRes st p c).2.2.1 =
        [ConnAct.commit, ConnAct.putback] ∧
      c ∈ (connectExit tid bodyErr rollbackRes st p c).2.1.free) ∧
    (st.count = 1 → bodyErr ≠ none →
      (connectExit tid bodyErr rollbackRes st p c).2.2.1 =
        [ConnAct.rollback, ConnAct.putback] ∧
      c ∈ (connectExit tid bodyErr rollbackRes st p c).2.1.free) ∧
    (1 < st.count →
      (connectExit tid bodyErr rollbackRes st p c).2.2.1 = [] ∧
      0 < (connectExit tid bodyErr rollbackRes st p c).1.count) := by
  by_cases hone : st.count = 1
  · refine ⟨?_, ?_, ?_, ?_⟩
    · cases bodyErr with
      | none => simp [connectExit, hone]
      | some e0 =>
        cases rollbackRes with
        | none => simp [connectExit, hone]
        | some e2 => simp [connectExit, hone]
    · intro _ hbe
      subst hbe
      exact ⟨by simp [connectExit, hone], by simp [connectExit, hone, putconn]⟩
    · intro _ hbe
      cases bodyErr with
      | none => exact absurd rfl hbe
      | some e0 =>
        cases rollbackRes with
        | none => exact ⟨by simp [connectExit, hone], by simp [connectExit, hone, putconn]⟩
        | some e2 => exact ⟨by simp [connectExit, hone], by simp [connectExit, hone, putconn]⟩
    · intro hlt
      omega
  · have hlt : 1 < st.count := by omega
    refine ⟨?_, ?_, ?_, ?_⟩
    · cases bodyErr with
      | none => simp [connectExit, hone]
      | some e0 => simp [connectExit, hone]
    · intro he
      exact absurd he hone
    · intro he
      exact absurd he hone
    · intro _
      cases bodyErr with
      | none => exact ⟨by simp [connectExit, hone], by simp [connectExit, hone]; omega⟩
      | some e0 => exact ⟨by simp [connectExit, hone], by simp [connectExit, hone]; omega⟩

/-- Witness for C2 at concrete inputs: an outermost successful exit commits
and returns handle 7; an inner erroring exit performs no action and leaves
depth 1. -/
theorem c2_outermost_exit_witness :
    (connectExit 5 none none ⟨some 7, 1⟩ ⟨[], [(5, 7)]⟩ 7).1.count = 1 - 1 ∧
    ((connectExit 5 none none ⟨some 7, 1⟩ ⟨[], [(5, 7)]⟩ 7).2.2.1 =
      [ConnAct.commit, ConnAct.putback] ∧
      7 ∈ (connectExit 5 none none ⟨some 7, 1⟩ ⟨[], [(5, 7)]⟩ 7).2.1.free) ∧
    ((connectExit 5 (some 3) none ⟨some 7, 2⟩ ⟨[], [(5, 7)]⟩ 7).2.2.1 = [] ∧
      0 < (connectExit 5 (some 3) none ⟨some 7, 2⟩ ⟨[], [(5, 7)]⟩ 7).1.count) :=
  ⟨(c2_outermost_exit 5 none none ⟨some 7, 1⟩ ⟨[], [(5, 7)]⟩ 7 (by decide)).1,
   (c2_outermost_exit 5 none none ⟨some 7, 1⟩ ⟨[], [(5, 7)]⟩ 7 (by decide)).2.1 rfl rfl,
   (c2_outermost_exit 5 (some 3) none ⟨some 7, 2⟩ ⟨[], [(5, 7)]⟩ 7 (by decide)).2.2.2
     (by decide)⟩

/-- C3: over any well-formed sequence of scope entries and exits of one
logical execution context (error exits included), finalization (returning
the handle to the pool) is performed exactly at the exits that take the
depth to zero, and, once the trace is balanced, exactly once per outermost
scope. -/
theorem c3_finalize_exactly_once (tid c0 : Nat) (es : List SEv)
    (hwf : wfS es 0 = true) :
    (runS tid es (initS c0)).2 = finExits es 0 ∧
    (depthAfter es 0 = 0 → (runS tid es (initS c0)).2 = outerEnters es 0) := by
  have hinv : InvS tid c0 0 (initS c0) := ⟨rfl, by rw [if_pos rfl]; exact ⟨rfl, rfl⟩⟩
  have h1 := runS_fins tid c0 es 0 (initS c0) hinv hwf
  refine ⟨h1, fun hz => ?_⟩
  have h2 := finExits_outer es 0 hwf
  rw [hz] at h2
  rw [h1]
  omega

/-- Witness for C3 on a concrete trace: two nested scopes, the inner exiting
with an error, the outer exiting cleanly; one finalization, one outermost
scope. -/
theorem c3_finalize_exactly_once_witness :
    (runS 5 [SEv.enter, SEv.enter, SEv.exitS (some 3) none, SEv.exitS none none]
      (initS 7)).2 =
      outerEnters [SEv.enter, SEv.enter, SEv.exitS (some 3) none, SEv.exitS none none] 0 :=
  (c3_finalize_exactly_once 5 7
    [SEv.enter, SEv.enter, SEv.exitS (some 3) none, SEv.exitS none none]
    (by decide)).2 (by decide)

/-- C4: in every reachable state, a context's depth is positive exactly when
it holds a connection handle, and at depth zero it holds no handle and no
pool binding. -/
theorem c4_depth_handle_invariant (free : List Nat) (s : GState)
    (hf : free.Nodup) (hr : Reachable free s) (t : Nat) :
    (0 < (s.locals t).count ↔ ((s.locals t).connection).isSome) ∧
    ((s.locals t).count = 0 →
      (s.locals t).connection = none ∧ lookupKey s.pool.used t = none) := by
  obtain ⟨h1, h2, _, _⟩ := dbInv_reachable free s hf hr
  refine ⟨h2 t, fun hz => ?_⟩
  have hnone : (s.locals t).connection = none := by
    cases hcc : (s.locals t).connection with
    | none => rfl
    | some c =>
      have : 0 < (s.locals t).count := (h2 t).mpr (by simp [hcc])
      omega
  exact ⟨hnone, (h1 t).symm.trans hnone⟩

/-- Witness for C4 at a concrete reachable state: after thread 0 enters,
its depth is 1 with a handle held, while idle thread 1 holds nothing. -/
theorem c4_depth_handle_invariant_witness :
    (0 < ((stepEv (initState [10]) (DbEv.enter 0)).locals 0).count ↔
      ((((stepEv (initState [10]) (DbEv.enter 0)).locals 0)).connection).isSome) ∧
    (((stepEv (initState [10]) (DbEv.enter 0)).locals 1).count = 0 →
      ((stepEv (initState [10]) (DbEv.enter 0)).locals 1).connection = none ∧
      lookupKey (stepEv (initState [10]) (DbEv.enter 0)).pool.used 1 = none) :=
  ⟨(c4_depth_handle_invariant [10] _ (by decide)
      (Reachable.next _ (DbEv.enter 0) Reachable.base) 0).1,
   (c4_depth_handle_invariant [10] _ (by decide)
      (Reachable.next _ (DbEv.enter 0) Reachable.base) 1).2⟩

/-- C5: when the body of an outermost scope raises, the rollback is issued
first and the body's error then propagates unchanged; if the rollback itself
raises, the rollback's error propagates instead (taking precedence), and the
handle is still returned to the pool either way. -/
theorem c5_rollback_precedence (tid e : Nat) (rollbackRes : Option Nat)
    (st : LocalState) (p : PoolState) (c : Nat) (h : st.count = 1) :
    (connectExit tid (some e) rollbackRes st p c).2.2.1 =
      [ConnAct.rollback, ConnAct.putback] ∧
    (rollbackRes = none → (connectExit tid (some e) rollbackRes st p c).2.2.2 = some e) ∧
    (∀ e2, rollbackRes = some e2 →
      (connectExit tid (some e) rollbackRes st p c).2.2.2 = some e2) := by
  cases rollbackRes with
  | none =>
    refine ⟨by simp [connectExit, h], fun _ => by simp [connectExit, h], ?_⟩
    intro e2 he
    exact absurd he (by simp)
  | some e3 =>
    refine ⟨by simp [connectExit, h], fun he => absurd he (by simp), ?_⟩
    intro e2 he
    obtain rfl : e3 = e2 := Option.some.inj he
    simp [connectExit, h]

/-- Witness for C5 at concrete inputs: with a healthy rollback the body's
error 3 propagates after the rollback; with a failing rollback its error 9
propagates instead. -/
theorem c5_rollback_precedence_witness :
    (connectExit 5 (some 3) none ⟨some 7, 1⟩ ⟨[], [(5, 7)]⟩ 7).2.2.1 =
      [ConnAct.rollback, ConnAct.putback] ∧
    (connectExit 5 (some 3) none ⟨some 7, 1⟩ ⟨[], [(5, 7)]⟩ 7).2.2.2 = some 3 ∧
    (connectExit 5 (some 3) (some 9) ⟨some 7, 1⟩ ⟨[], [(5, 7)]⟩ 7).2.2.2 = some 9 :=
  ⟨(c5_rollback_precedence 5 3 none ⟨some 7, 1⟩ ⟨[], [(5, 7)]⟩ 7 rfl).1,
   (c5_rollback_precedence 5 3 none ⟨some 7, 1⟩ ⟨[], [(5, 7)]⟩ 7 rfl).2.1 rfl,
   (c5_rollback_precedence 5 3 (some 9) ⟨some 7, 1⟩ ⟨[], [(5, 7)]⟩ 7 rfl).2.2 9 rfl⟩

/-- C6 (counterexample): the claim decode(encode(v)) == v fails as stated on
the code: the list codec resolves to the JSON codec, whose encode wraps the
value in a serialized text (a Python str), which its own decode — applying
schema.json_decode directly, with no parse — rejects.  Already the empty
list, a valid boundary value, fails the composed round trip. -/
theorem c6_roundtrip_counterexample :
    valid (SType.slist Sc.sint) (Py.pylist []) = true ∧
    resolveCodec (codecKey (SType.slist Sc.sint)) = some CodecTag.tjson ∧
    ((codecOf CodecTag.tjson).encode (SType.slist Sc.sint) (Py.pylist [])).bind
      ((codecOf CodecTag.tjson).decode (SType.slist Sc.sint)) = none := by
  decide

/-- C6 (amended): for every abstract type and valid value, the resolved
non-JSON codecs (pass-through, bytes, text) satisfy decode(encode(v)) == v
directly; for the JSON codec the round trip holds at the structured JSON
level — schema json_decode inverts schema json_encode, set order loss
excepted via the canonical form — the codec's encode only adding the textual
serialization that the database's own JSON parse undoes. -/
theorem c6_codec_roundtrip (sch : SType) (v : Py) (h : valid sch v = true) :
    (∀ t, resolveCodec (codecKey sch) = some t → t ≠ CodecTag.tjson →
      ((codecOf t).encode sch v).bind ((codecOf t).decode sch) = some v) ∧
    (resolveCodec (codecKey sch) = some CodecTag.tjson →
      (jsonEncode sch v).bind (jsonDecode sch) = some v) := by
  refine ⟨?_, fun _ => json_roundtrip sch v h⟩
  intro t ht hne
  cases sch with
  | scalar k =>
    cases k with
    | sint =>
      obtain rfl : CodecTag.tpass = t := Option.some.inj ht
      rfl
    | sfloat =>
      obtain rfl : CodecTag.tpass = t := Option.some.inj ht
      rfl
    | sbool =>
      obtain rfl : CodecTag.tpass = t := Option.some.inj ht
      rfl
    | sbytes =>
      obtain rfl : CodecTag.tbytes = t := Option.some.inj ht
      cases v with
      | atom a => cases a <;> first | rfl | exact absurd h (by simp [valid, validSc])
      | pylist xs => exact absurd h (by simp [valid])
      | pydict kvs => exact absurd h (by simp [valid])
      | pyset xs => exact absurd h (by simp [valid])
    | sdate =>
      obtain rfl : CodecTag.tpass = t := Option.some.inj ht
      rfl
    | sdatetime =>
      obtain rfl : CodecTag.tpass = t := Option.some.inj ht
      rfl
    | suuid =>
      obtain rfl : CodecTag.ttext = t := Option.some.inj ht
      cases v with
      | atom a => cases a <;> first | rfl | exact absurd h (by simp [valid, validSc])
      | pylist xs => exact absurd h (by simp [valid])
      | pydict kvs => exact absurd h (by simp [valid])
      | pyset xs => exact absurd h (by simp [valid])
    | sstr =>
      obtain rfl : CodecTag.ttext = t := Option.some.inj ht
      cases v with
      | atom a => cases a <;> first | rfl | exact absurd h (by simp [valid, validSc])
      | pylist xs => exact absurd h (by simp [valid])
      | pydict kvs => exact absurd h (by simp [valid])
      | pyset xs => exact absurd h (by simp [valid])
  | sdict props => exact absurd (Option.some.inj ht).symm hne
  | slist k => exact absurd (Option.some.inj ht).symm hne
  | sset k => exact absurd (Option.some.inj ht).symm hne

/-- Witness for C6 (amended) at concrete inputs: a two-element string set
round-trips through the JSON level, and a negative integer round-trips
through the pass-through codec. -/
theorem c6_codec_roundtrip_witness :
    (jsonEncode (SType.sset Sc.sstr) (Py.pyset [Sca.vstr ("bar"), Sca.vstr ("foo")])).bind
      (jsonDecode (SType.sset Sc.sstr)) =
      some (Py.pyset [Sca.vstr ("bar"), Sca.vstr ("foo")]) ∧
    ((codecOf CodecTag.tpass).encode (SType.scalar Sc.sint) (Py.atom (Sca.vint (-5)))).bind
      ((codecOf CodecTag.tpass).decode (SType.scalar Sc.sint)) =
      some (Py.atom (Sca.vint (-5))) :=
  ⟨(c6_codec_roundtrip (SType.sset Sc.sstr)
      (Py.pyset [Sca.vstr ("bar"), Sca.vstr ("foo")]) (by decide)).2 (by decide),
   (c6_codec_roundtrip (SType.scalar Sc.sint) (Py.atom (Sca.vint (-5))) (by decide)).1
      CodecTag.tpass (by decide) (by decide)⟩

/-- C7 (counterexample): the claim that every scalar of the built-in table —
string included — resolves by exact match is false on the code: the
module-level _codecs table has no entry for the string schema type. -/
theorem c7_scalar_table_counterexample : _codecs CodecKey.kstr = none := rfl

/-- C7 (amended): exact match against the built-in table succeeds for int,
float, bool, bytes, date, datetime and UUID, each mapping to a defined codec
(pass-through, bytes or textual); string is absent from the table and
resolves only through the scalar fallback to the textual codec, so that none
of the eight scalar kinds ultimately fails resolution. -/
theorem c7_scalar_table_amended :
    _codecs CodecKey.kint = some CodecTag.tpass ∧
    _codecs CodecKey.kfloat = some CodecTag.tpass ∧
    _codecs CodecKey.kbool = some CodecTag.tpass ∧
    _codecs CodecKey.kbytes = some CodecTag.tbytes ∧
    _codecs CodecKey.kdate = some CodecTag.tpass ∧
    _codecs CodecKey.kdatetime = some CodecTag.tpass ∧
    _codecs CodecKey.kuuid = some CodecTag.ttext ∧
    _codecs CodecKey.kstr = none ∧
    resolveCodec CodecKey.kstr = some CodecTag.ttext ∧
    (resolveCodec CodecKey.kint).isSome = true ∧
    (resolveCodec CodecKey.kfloat).isSome = true ∧
    (resolveCodec CodecKey.kbool).isSome = true ∧
    (resolveCodec CodecKey.kbytes).isSome = true ∧
    (resolveCodec CodecKey.kdate).isSome = true ∧
    (resolveCodec CodecKey.kdatetime).isSome = true ∧
    (resolveCodec CodecKey.kuuid).isSome = true ∧
    (resolveCodec CodecKey.kstr).isSome = true := by
  decide

/-- C8: in the asynchronous successor's codec resolution (modelled from the
spec, its tests pinning the array cases), a list or set of an array-capable
element type T resolves to the native array of T's native type, and falls
back to the JSON native representation exactly when T has no array-capable
native representation. -/
theorem c8_array_resolution (t : FType) :
    (arrayCapable t = true →
      sqlTypeF (FType.flist t) = sqlTypeF t ++ "[]" ∧
      sqlTypeF (FType.fset t) = sqlTypeF t ++ "[]") ∧
    (arrayCapable t = false →
      sqlTypeF (FType.flist t) = "JSONB" ∧ sqlTypeF (FType.fset t) = "JSONB") := by
  constructor
  · intro h
    constructor <;> simp [sqlTypeF, h]
  · intro h
    constructor <;> simp [sqlTypeF, h]

/-- Witness for C8 at concrete inputs: list of int resolves to BIGINT[] (as
the test pins), and a list of lists falls back to JSONB. -/
theorem c8_array_resolution_witness :
    arrayCapable (FType.fscalar Sc.sint) = true ∧
    sqlTypeF (FType.flist (FType.fscalar Sc.sint)) =
      sqlTypeF (FType.fscalar Sc.sint) ++ "[]" ∧
    sqlTypeF (FType.flist (FType.flist (FType.fscalar Sc.sint))) = "JSONB" :=
  ⟨rfl, ((c8_array_resolution (FType.fscalar Sc.sint)).1 rfl).1,
   ((c8_array_resolution (FType.flist (FType.fscalar Sc.sint))).2 rfl).1⟩

/-- C9: the bytes codec's encode is the identity on every value, its decode
applies the bytes() builtin so that each buffer-like wire value (bytes,
bytearray, memoryview) decodes to the bytes value with the same contents,
and a bytes value composed through encode then decode comes back equal. -/
theorem c9_bytes_codec (sch : SType) (bs : List Nat) :
    (∀ v, _BytesCodec.encode sch v = some v) ∧
    _BytesCodec.decode sch (Py.atom (Sca.vbytes bs)) = some (Py.atom (Sca.vbytes bs)) ∧
    _BytesCodec.decode sch (Py.atom (Sca.vbytearray bs)) = some (Py.atom (Sca.vbytes bs)) ∧
    _BytesCodec.decode sch (Py.atom (Sca.vmemoryview bs)) = some (Py.atom (Sca.vbytes bs)) ∧
    (_BytesCodec.encode sch (Py.atom (Sca.vbytes bs))).bind (_BytesCodec.decode sch) =
      some (Py.atom (Sca.vbytes bs)) :=
  ⟨fun _ => rfl, rfl, rfl, rfl, rfl⟩

/-- C10: when the outermost entry's pool checkout fails, the error
propagates with the thread-local state untouched (the enter step is a
no-op on the whole system state), and a later entry by the same context
performs a fresh first checkout. -/
theorem c10_failed_checkout (s : GState) (tid : Nat)
    (h1 : (s.locals tid).connection = none) (h2 : getconn s.pool tid = none) :
    connectEnter tid (s.locals tid) s.pool = Except.error () ∧
    stepEv s (DbEv.enter tid) = s ∧
    (∀ p2 c p3, getconn p2 tid = some (c, p3) →
      connectEnter tid (s.locals tid) p2 = Except.ok (⟨some c, 1⟩, p3, c)) := by
  refine ⟨?_, ?_, ?_⟩
  · simp [connectEnter, h1, h2]
  · simp [stepEv, connectEnter, h1, h2]
  · intro p2 c p3 hg
    simp [connectEnter, h1, hg]

/-- Witness for C10 at concrete inputs: with an exhausted pool thread 0's
entry leaves the initial state unchanged, and a retry against a replenished
pool checks out handle 4 afresh. -/
theorem c10_failed_checkout_witness :
    stepEv (initState []) (DbEv.enter 0) = initState [] ∧
    connectEnter 0 ((initState []).locals 0) ⟨[4], []⟩ =
      Except.ok (⟨some 4, 1⟩, ⟨[], [(0, 4)]⟩, 4) :=
  ⟨(c10_failed_checkout (initState []) 0 rfl rfl).2.1,
   (c10_failed_checkout (initState []) 0 rfl rfl).2.2 ⟨[4], []⟩ 4 ⟨[], [(0, 4)]⟩ rfl⟩
